import Mathlib

/-!
Verification of `src/advanced-vector/vector.h` (templates `RawMemory<T>` and
`Vector<T>`): a shallow embedding of the container's state and public
operations, followed by theorems checking the specification's claims.

Element values are modelled as `Nat`.  Two instantiations of the element
type are embedded, matching the template's `if constexpr` dispatch:
* an element type whose move construction is `noexcept` (e.g. `int`), for
  which relocation moves and no element operation throws — the pure
  operations below;
* an element type that is copyable but whose move construction may throw,
  so relocation copies, together with a copy constructor that throws after
  a fixed number of copy constructions — the budget-passing operations
  (`copyRange`, `EmplaceBackC`, `EmplaceReallocC`, `CopyAssign`): each copy
  construction consumes one unit of budget and the copy throws when the
  budget is exhausted.  A result `.error s` means the C++ call exits by an
  exception with the vector's observable state being `s` at that moment.
-/

namespace AdvancedVector

/-- Model of `RawMemory<T>`: `buffer_` is abstracted to an ownership flag
(`true` ⟺ `buffer_ != nullptr`), `capacity_` is `capacity`. -/
structure RawMemory where
  buffer : Bool
  capacity : Nat
deriving DecidableEq, Repr

/-- `RawMemory::operator=(RawMemory&&)`:
`buffer_ = std::exchange(rhs.buffer_, nullptr); capacity_ = rhs.capacity_;`.
Returns (new `*this`, new `rhs`).  Note the source's `capacity_` is read but
never reset. -/
def RawMemory.moveAssign (lhs rhs : RawMemory) : RawMemory × RawMemory :=
  let _ := lhs  -- the old buffer of *this is overwritten
  (⟨rhs.buffer, rhs.capacity⟩, ⟨false, rhs.capacity⟩)

/-- `RawMemory(RawMemory&& other)`: default-initialises the fields and then
delegates to the move assignment (`*this = std::move(other)`).
Returns (new object, moved-from `other`). -/
def RawMemory.moveCtor (other : RawMemory) : RawMemory × RawMemory :=
  RawMemory.moveAssign ⟨false, 0⟩ other

/-- Model of `Vector<T>` with its `RawMemory` member kept explicit, used for
the move-construction claim: `raw` is `data_`, `elemsOwned` the live objects
residing in the owned region, `size` is `size_`. -/
structure VectorM where
  raw : RawMemory
  elemsOwned : List Nat
  size : Nat
deriving DecidableEq, Repr

/-- `Vector(Vector&& other)`: `data_(std::move(other.data_)),
size_(std::exchange(other.size_, 0))`.  The live objects sit in the region,
so they travel with the buffer.  Returns (new vector, moved-from source). -/
def VectorM.moveCtor (other : VectorM) : VectorM × VectorM :=
  let p := RawMemory.moveCtor other.raw
  (⟨p.1, other.elemsOwned, other.size⟩, ⟨p.2, [], 0⟩)

/-- Model of `Vector<T>` state for the remaining claims: `elems` is the list
of live constructed objects in storage order, `size` is the `size_` field,
`cap` is `data_.Capacity()`. -/
structure Vec where
  elems : List Nat
  size : Nat
  cap : Nat
deriving DecidableEq, Repr

/-- The representation invariant of `Vector<T>` stated by the spec: exactly
the objects at logical indices `[0, size)` are live (`size_` counts the live
list) and `size ≤ capacity`. -/
def Inv (v : Vec) : Prop := v.size = v.elems.length ∧ v.size ≤ v.cap

instance (v : Vec) : Decidable (Inv v) :=
  inferInstanceAs (Decidable (v.size = v.elems.length ∧ v.size ≤ v.cap))

/-- The weakened representation invariant that actually survives every
public operation, exceptions included: `size ≤ capacity`, the objects at
logical indices `[0, size)` are always live (`size ≤ elems.length`), and at
most one extra constructed object — the slot `size_` object left behind
when the in-place `Emplace` shift throws — can be present
(`elems.length ≤ size + 1`). -/
def WInv (v : Vec) : Prop :=
  v.size ≤ v.cap ∧ v.size ≤ v.elems.length ∧ v.elems.length ≤ v.size + 1

instance (v : Vec) : Decidable (WInv v) :=
  inferInstanceAs
    (Decidable (v.size ≤ v.cap ∧ v.size ≤ v.elems.length ∧
      v.elems.length ≤ v.size + 1))

/-- `Vector::EmplaceBack` for a nothrow-move element type.  If `size_ <
Capacity()` the element is constructed at `data_ + size_`; otherwise new
storage of `size_ == 0 ? 1 : Capacity()*2` is acquired, the element is
constructed at `new_data + size_`, and `ReallocateData` moves the old
elements across, destroys them and swaps the buffers.  Finally `++size_`. -/
def EmplaceBack (v : Vec) (x : Nat) : Vec :=
  if v.size < v.cap then
    { elems := v.elems ++ [x], size := v.size + 1, cap := v.cap }
  else
    let newCapacity := if v.size = 0 then 1 else v.cap * 2
    { elems := v.elems ++ [x], size := v.size + 1, cap := newCapacity }

/-- `std::move_backward(begin() + p, end() - 1, end())` acting on the buffer
`buf` (of length `n + 1`, where `n` is `size_`): slots `p+1 … n-1` receive
the old slots `p … n-2`; slot `p` keeps its (moved-from) value and slot `n`
was just written by the placement new. -/
def moveBackwardSeg (buf : List Nat) (p n : Nat) : List Nat :=
  buf.take (p + 1) ++ (buf.drop p).take (n - 1 - p) ++ buf.drop n

/-- The in-place branch of `Vector::Emplace` (capacity available, `pos`
strictly inside): `T copy(args…); new (end()) T(std::move(*(end()-1)));
std::move_backward(begin()+pos, end()-1, end()); data_[pos] =
std::move(copy);`. -/
def inPlaceShift (l : List Nat) (p : Nat) (x : Nat) : List Nat :=
  (moveBackwardSeg (l ++ [l.getD (l.length - 1) 0]) p l.length).set p x

/-- `Vector::Emplace` for a nothrow-move element type.  `pos == end()`
delegates to `EmplaceBack`; with spare capacity the in-place backward shift
runs; otherwise new storage is acquired, the element is constructed at index
`pos` of the new buffer and `ReallocatePartial` relocates `[begin,pos)`
before it and `[pos,end)` after it, then the old elements are destroyed and
the buffers swapped.  Finally `++size_`. -/
def Emplace (v : Vec) (p : Nat) (x : Nat) : Vec :=
  if p = v.size then EmplaceBack v x
  else if v.size < v.cap then
    { elems := inPlaceShift v.elems p x, size := v.size + 1, cap := v.cap }
  else
    let newCapacity := if v.size = 0 then 1 else v.cap * 2
    { elems := v.elems.take p ++ x :: v.elems.drop p
      size := v.size + 1
      cap := newCapacity }

/-- `Vector::Insert(pos, value)` delegates to `Emplace`. -/
def Insert (v : Vec) (p : Nat) (x : Nat) : Vec := Emplace v p x

/-- `Vector::Erase(pos)`: `std::move(begin()+pos+1, end(), begin()+pos)`
shifts the suffix one slot left (the last slot keeps its moved-from value),
then `std::destroy_at(end()-1)` and `--size_`. -/
def Erase (v : Vec) (p : Nat) : Vec :=
  let shifted := v.elems.take p ++ v.elems.drop (p + 1) ++ v.elems.drop (v.size - 1)
  { elems := shifted.take (v.size - 1), size := v.size - 1, cap := v.cap }

/-- `Vector::Reserve(new_capacity)`: no-op when `new_capacity ≤ Capacity()`,
otherwise acquire storage of exactly `new_capacity` and `ReallocateData`. -/
def Reserve (v : Vec) (n : Nat) : Vec :=
  if n ≤ v.cap then v
  else { elems := v.elems, size := v.size, cap := n }

/-- `Vector::Resize(new_size)`: equal size is a no-op; shrinking destroys
the tail `[new_size, size_)`; growing calls `Reserve(new_size)` and
value-constructs the tail (default value `0`).  Then `size_ = new_size`. -/
def Resize (v : Vec) (n : Nat) : Vec :=
  if n = v.size then v
  else if n < v.size then
    { elems := v.elems.take n, size := n, cap := v.cap }
  else
    { elems := (Reserve v n).elems ++ List.replicate (n - v.size) 0
      size := n
      cap := (Reserve v n).cap }

/-- `Vector::PopBack`: `std::destroy_at(end() - 1); --size_;`. -/
def PopBack (v : Vec) : Vec :=
  { elems := v.elems.take (v.size - 1), size := v.size - 1, cap := v.cap }

/-- `std::uninitialized_copy_n` for the throwing-copy element type: each
copy construction consumes one unit of budget; when the budget is exhausted
the copy throws, the partially constructed copies are destroyed by
`uninitialized_copy_n` itself and the exception propagates (`.error`). -/
def copyRange : List Nat → Nat → Except Unit (List Nat × Nat)
  | [], b => .ok ([], b)
  | _ :: _, 0 => .error ()
  | x :: xs, b + 1 =>
    match copyRange xs b with
    | .error e => .error e
    | .ok (ys, bRest) => .ok (x :: ys, bRest)

/-- `Vector::EmplaceBack` instantiated at the copyable, throwing-copy
element type (relocation copies, the argument is copied into place).  On
`.error s`, `s` is the vector's observable state when the exception leaves
the call; note that no statement mutating `data_` or `size_` runs before the
throw on either path. -/
def EmplaceBackC (v : Vec) (x : Nat) (b : Nat) : Except Vec (Vec × Nat) :=
  if v.size < v.cap then
    if b = 0 then .error v
    else .ok ({ elems := v.elems ++ [x], size := v.size + 1, cap := v.cap }, b - 1)
  else
    if b = 0 then .error v
    else
      match copyRange v.elems (b - 1) with
      | .error _ => .error v
      | .ok (l, bRest) =>
        .ok ({ elems := l ++ [x], size := v.size + 1,
               cap := if v.size = 0 then 1 else v.cap * 2 }, bRest)

/-- The reallocating branch of `Vector::Emplace` (entered when `pos ≠ end()`
and `size_ ≥ Capacity()`), instantiated at the throwing-copy element type.
New storage is acquired, the target element is constructed at index `pos`,
then `ReallocatePartial` copies `[begin, pos)` to the front and `[pos, end)`
after the target; the first catch destroys only the target element, the
second destroys the first `pos + 1` objects of the new storage
(`std::destroy_n(new_data.GetAddress(), pos_index + 1)`).  `.error (s, d)`
gives the vector's state `s` at propagation and the number `d` of objects
the catch handler destroyed in the new storage; `.ok (w, bRest)` is the
state after `destroy_n(begin(), size_); data_.Swap(new_data); ++size_`. -/
def EmplaceReallocC (v : Vec) (p : Nat) (x : Nat) (b : Nat) :
    Except (Vec × Nat) (Vec × Nat) :=
  if b = 0 then .error (v, 0)
  else
    match copyRange (v.elems.take p) (b - 1) with
    | .error _ => .error (v, 1)
    | .ok (pre, bPre) =>
      match copyRange (v.elems.drop p) bPre with
      | .error _ => .error (v, p + 1)
      | .ok (suf, bRest) =>
        .ok ({ elems := pre ++ x :: suf, size := v.size + 1,
               cap := if v.size = 0 then 1 else v.cap * 2 }, bRest)

/-- The buffer left by the in-place branch of `Vector::Emplace` when a move
throws after `new (end()) T(std::move(*(end() - 1)))` has constructed slot
`n` (`n` is `size_`) and `k` move-assignments of `std::move_backward` have
completed: slots `0 … n-k-1` keep their values, slots `n-k … n-1` received
the old slots `n-k-1 … n-2`, and slot `n` holds the old last value — all
`n + 1` slots contain live constructed objects. -/
def partialShiftAt (l : List Nat) (n k : Nat) : List Nat :=
  l.take (n - k) ++ (l.drop (n - k - 1)).take k ++ [l.getD (n - 1) 0]

/-- The spare-capacity branch of `Vector::Emplace` (`pos ≠ end()`,
`size_ < Capacity()`) instantiated at an element type whose moves throw
after a budget of `b` move operations (the argument is copied into the
local `copy`, which does not consume the move budget).  The moves, in
order: the move construction at `end()` (1), the `size_ - 1 - pos`
move-assignments of `std::move_backward`, and the final move-assignment
into `pos`.  The source has no try/catch here: a throw propagates at once,
`size_` is never incremented, and the object constructed at slot `size_`
is left behind — `.error s` is the vector's observable state at
propagation. -/
def EmplaceInPlaceC (v : Vec) (p x b : Nat) : Except Vec (Vec × Nat) :=
  if b = 0 then .error v
  else if b - 1 < v.size - 1 - p then
    .error ⟨partialShiftAt v.elems v.size (b - 1), v.size, v.cap⟩
  else if b - 1 < v.size - p then
    .error ⟨partialShiftAt v.elems v.size (v.size - 1 - p), v.size, v.cap⟩
  else
    .ok (⟨inPlaceShift v.elems p x, v.size + 1, v.cap⟩, b - (v.size - p + 1))

/-- Result of a completed `Vector::operator=(const Vector&)`: the new state
of `*this`, the remaining copy-construction budget, and the number of
destructor calls executed on elements of the left vector's buffer. -/
structure AssignOut where
  vec : Vec
  budget : Nat
  dtors : Nat
deriving DecidableEq, Repr

/-- `Vector::operator=(const Vector& rhs)`.  `same` models `this == &rhs`
(the guard `if (this != &rhs)`).  Cases as in the source: if `rhs.size_ >
Capacity()`, build `Vector rhs_copy(rhs)` (copy construction:
`uninitialized_copy_n` of `rhs.size_` elements, budgeted) and `Swap` it in —
the temporary's destructor then destroys the old elements; else if
`rhs.size_ < size_`, `copy_n` the prefix in place and `destroy_n` the excess
tail; else `copy_n` over the first `size_` elements and
`uninitialized_copy_n` the remaining `rhs.size_ - size_` (budgeted).
`.error (s, d)` gives the state of `*this` at propagation and the destructor
calls performed on its elements. -/
def CopyAssign (same : Bool) (lhs rhs : Vec) (b : Nat) :
    Except (Vec × Nat) AssignOut :=
  if same then .ok ⟨lhs, b, 0⟩
  else if lhs.cap < rhs.size then
    match copyRange (rhs.elems.take rhs.size) b with
    | .error _ => .error (lhs, 0)
    | .ok (l, bRest) => .ok ⟨⟨l, rhs.size, rhs.size⟩, bRest, lhs.size⟩
  else if rhs.size < lhs.size then
    .ok ⟨⟨rhs.elems.take rhs.size, rhs.size, lhs.cap⟩, b, lhs.size - rhs.size⟩
  else
    match copyRange ((rhs.elems.drop lhs.size).take (rhs.size - lhs.size)) b with
    | .error _ => .error (⟨rhs.elems.take lhs.size, lhs.size, lhs.cap⟩, 0)
    | .ok (l, bRest) =>
      .ok ⟨⟨rhs.elems.take lhs.size ++ l, rhs.size, lhs.cap⟩, bRest, 0⟩

/-- `k` single-element appends (`EmplaceBack`) to a default-constructed
vector, with arbitrary values `f 0, f 1, …`. -/
def AppendIter (f : Nat → Nat) : Nat → Vec
  | 0 => ⟨[], 0, 0⟩
  | k + 1 => EmplaceBack (AppendIter f k) (f k)

/-- Ways a `Vector<T>` comes into existence: default construction, sized
construction (`n` value-constructed elements in storage of capacity `n`),
copy construction from a valid vector (storage of capacity `other.size_`),
and the target side of move construction. -/
def InitState (v : Vec) : Prop :=
  v = ⟨[], 0, 0⟩ ∨
  (∃ n : Nat, v = ⟨List.replicate n 0, n, n⟩) ∨
  (∃ w : Vec, Inv w ∧ v = ⟨w.elems.take w.size, w.size, w.size⟩) ∨
  (∃ w : Vec, Inv w ∧ v = ⟨w.elems, w.size, w.cap⟩)

/-- One public operation performed on a vector, relating its state before
to its state after.  Operations with preconditions carry them; throwing
operations contribute both their success state and the state observed when
the exception propagates (`.error`) — including the unguarded in-place
`Emplace` shift (`inPlaceOk`/`inPlaceErr`), whose mid-shift throw leaves an
extra constructed object at slot `size_`.  `moveSource` is the moved-from
side of move construction; `swapWith` covers `Swap` and move assignment,
whose partner may be any valid vector. -/
inductive Step : Vec → Vec → Prop where
  | emplaceBack {v : Vec} (x : Nat) : Step v (EmplaceBack v x)
  | emplace {v : Vec} (p x : Nat) (h : p ≤ v.size) : Step v (Emplace v p x)
  | erase {v : Vec} (p : Nat) (h : p < v.size) : Step v (Erase v p)
  | popBack {v : Vec} (h : 0 < v.size) : Step v (PopBack v)
  | reserve {v : Vec} (n : Nat) : Step v (Reserve v n)
  | resize {v : Vec} (n : Nat) : Step v (Resize v n)
  | moveSource {v : Vec} : Step v ⟨[], 0, v.cap⟩
  | swapWith {v : Vec} (w : Vec) (hw : Inv w) : Step v w
  | assignOk {v : Vec} (same : Bool) (rhs : Vec) (b : Nat) (out : AssignOut)
      (hr : Inv rhs) (h : CopyAssign same v rhs b = .ok out) : Step v out.vec
  | assignErr {v : Vec} (same : Bool) (rhs : Vec) (b : Nat) (out : Vec × Nat)
      (hr : Inv rhs) (h : CopyAssign same v rhs b = .error out) : Step v out.1
  | pushOk {v : Vec} (x b : Nat) (out : Vec × Nat)
      (h : EmplaceBackC v x b = .ok out) : Step v out.1
  | pushErr {v : Vec} (x b : Nat) (w : Vec)
      (h : EmplaceBackC v x b = .error w) : Step v w
  | emplROk {v : Vec} (p x b : Nat) (out : Vec × Nat) (hp : p < v.size)
      (hc : v.cap ≤ v.size) (h : EmplaceReallocC v p x b = .ok out) : Step v out.1
  | emplRErr {v : Vec} (p x b : Nat) (out : Vec × Nat) (hp : p < v.size)
      (hc : v.cap ≤ v.size) (h : EmplaceReallocC v p x b = .error out) : Step v out.1
  | inPlaceOk {v : Vec} (p x b : Nat) (out : Vec × Nat) (hp : p < v.size)
      (hc : v.size < v.cap) (h : EmplaceInPlaceC v p x b = .ok out) : Step v out.1
  | inPlaceErr {v : Vec} (p x b : Nat) (w : Vec) (hp : p < v.size)
      (hc : v.size < v.cap) (h : EmplaceInPlaceC v p x b = .error w) : Step v w

/-! ### Helper lemmas -/

theorem copyRange_ok (l : List Nat) : ∀ b : Nat, l.length ≤ b →
    copyRange l b = .ok (l, b - l.length) := by
  induction l with
  | nil => intro b _; simp [copyRange]
  | cons x xs ih =>
    intro b hb
    cases b with
    | zero => simp at hb
    | succ b =>
      have hxs : xs.length ≤ b := by simpa using hb
      simp only [copyRange, ih b hxs]
      simp [Nat.succ_sub_succ]

theorem copyRange_err (l : List Nat) : ∀ b : Nat, b < l.length →
    copyRange l b = .error () := by
  induction l with
  | nil => intro b hb; simp at hb
  | cons x xs ih =>
    intro b hb
    cases b with
    | zero => simp [copyRange]
    | succ b =>
      have hxs : b < xs.length := by simpa using hb
      simp [copyRange, ih b hxs]

theorem emplaceBack_elems_size (v : Vec) (x : Nat) :
    (EmplaceBack v x).elems = v.elems ++ [x] ∧ (EmplaceBack v x).size = v.size + 1 := by
  unfold EmplaceBack
  split <;> simp

theorem appendIter_size (f : Nat → Nat) :
    ∀ k : Nat, (AppendIter f k).size = k ∧ (AppendIter f k).elems.length = k := by
  intro k
  induction k with
  | zero => simp [AppendIter]
  | succ k ih =>
    have h := emplaceBack_elems_size (AppendIter f k) (f k)
    simp [AppendIter, h.1, h.2, ih.1, ih.2]

theorem emplaceBack_cap (v : Vec) (x : Nat) :
    (EmplaceBack v x).cap =
      if v.size < v.cap then v.cap else if v.size = 0 then 1 else v.cap * 2 := by
  unfold EmplaceBack
  split <;> simp_all

theorem appendIter_cap_bounds (f : Nat → Nat) :
    ∀ k : Nat, 1 ≤ k →
    k ≤ (AppendIter f k).cap ∧ (AppendIter f k).cap < 2 * k ∧
      ∃ m : Nat, (AppendIter f k).cap = 2 ^ m := by
  intro k
  induction k with
  | zero => intro h; omega
  | succ k ih =>
    intro _
    have hs := (appendIter_size f k).1
    have hcap := emplaceBack_cap (AppendIter f k) (f k)
    rw [AppendIter]
    by_cases hk : 1 ≤ k
    · obtain ⟨hle, hlt, m, hm⟩ := ih hk
      rw [hcap, hs]
      by_cases hc : k < (AppendIter f k).cap
      · rw [if_pos hc]
        exact ⟨by omega, by omega, m, hm⟩
      · rw [if_neg hc, if_neg (by omega : ¬ k = 0)]
        refine ⟨by omega, by omega, m + 1, ?_⟩
        rw [hm, pow_succ]
    · have hk0 : k = 0 := by omega
      subst hk0
      refine ⟨?_, ?_, 0, ?_⟩ <;> simp [AppendIter, EmplaceBack]

theorem take_last_append (l : List Nat) (p : Nat) (hp : p < l.length) :
    (l.drop p).take (l.length - 1 - p) ++ [l.getD (l.length - 1) 0] = l.drop p := by
  have hd : l.drop p ≠ [] := by
    intro h
    have h2 := List.length_drop p l
    rw [h] at h2
    simp at h2
    omega
  have h1 : l.length - 1 - p = (l.drop p).length - 1 := by
    rw [List.length_drop]; omega
  have h2 : l.getD (l.length - 1) 0 = (l.drop p).getLast hd := by
    rw [List.getLast_eq_getElem, List.getElem_drop,
        List.getD_eq_getElem l 0 (show l.length - 1 < l.length by omega)]
    congr 1
    rw [List.length_drop]
    omega
  rw [h1, h2, ← List.dropLast_eq_take, List.dropLast_append_getLast]

theorem inPlaceShift_eq (l : List Nat) (p x : Nat) (hp : p < l.length) :
    inPlaceShift l p x = l.take p ++ x :: l.drop p := by
  have hmin : p ⊓ (p + 1) = p := by omega
  unfold inPlaceShift moveBackwardSeg
  rw [List.take_append_of_le_length (show p + 1 ≤ l.length by omega),
      List.drop_append_of_le_length (show p ≤ l.length by omega),
      List.take_append_of_le_length
        (show l.length - 1 - p ≤ (l.drop p).length by rw [List.length_drop]; omega),
      List.drop_append_of_le_length (le_refl l.length),
      List.drop_length, List.nil_append,
      List.set_append,
      if_pos (show p < (l.take (p + 1) ++ (l.drop p).take (l.length - 1 - p)).length by
        rw [List.length_append, List.length_take, List.length_take, List.length_drop]
        omega),
      List.set_append,
      if_pos (show p < (l.take (p + 1)).length by rw [List.length_take]; omega),
      List.set_eq_take_append_cons_drop,
      if_pos (show p < (l.take (p + 1)).length by rw [List.length_take]; omega),
      List.take_take, hmin,
      List.drop_eq_nil_of_le
        (show (l.take (p + 1)).length ≤ p + 1 by rw [List.length_take]; omega),
      List.append_assoc (l.take p ++ x :: []),
      take_last_append l p hp,
      List.append_assoc, List.cons_append, List.nil_append]

theorem emplace_spec (v : Vec) (p x : Nat) (hv : Inv v) (hp : p ≤ v.size) :
    (Emplace v p x).elems = v.elems.take p ++ x :: v.elems.drop p ∧
    (Emplace v p x).size = v.size + 1 ∧
    v.size + 1 ≤ (Emplace v p x).cap := by
  obtain ⟨h1, h2⟩ := hv
  by_cases hpe : p = v.size
  · subst hpe
    rw [Emplace, if_pos rfl]
    have he := emplaceBack_elems_size v x
    have hc := emplaceBack_cap v x
    refine ⟨?_, he.2, ?_⟩
    · rw [he.1, h1, List.take_length, List.drop_length]
    · rw [hc]
      by_cases hlt : v.size < v.cap
      · rw [if_pos hlt]; omega
      · rw [if_neg hlt]
        by_cases h0 : v.size = 0
        · rw [if_pos h0]; omega
        · rw [if_neg h0]; omega
  · have hps : p < v.size := by omega
    rw [Emplace, if_neg hpe]
    by_cases hc : v.size < v.cap
    · rw [if_pos hc]
      exact ⟨inPlaceShift_eq v.elems p x (by omega), rfl, by simpa using hc⟩
    · rw [if_neg hc]
      refine ⟨rfl, rfl, ?_⟩
      show v.size + 1 ≤ if v.size = 0 then 1 else v.cap * 2
      rw [if_neg (show ¬ v.size = 0 by omega)]
      omega

theorem erase_elems (v : Vec) (p : Nat) (h1 : v.size = v.elems.length)
    (hp : p < v.size) :
    (Erase v p).elems = v.elems.take p ++ v.elems.drop (p + 1) := by
  show ((v.elems.take p ++ v.elems.drop (p + 1)) ++ v.elems.drop (v.size - 1)).take
      (v.size - 1) = _
  apply List.take_left'
  rw [List.length_append, List.length_take, List.length_drop]
  omega

theorem emplaceBackC_eq (v : Vec) (x b : Nat) :
    EmplaceBackC v x b =
      if v.size < v.cap then
        if b = 0 then .error v
        else .ok (⟨v.elems ++ [x], v.size + 1, v.cap⟩, b - 1)
      else if b ≤ v.elems.length then .error v
      else .ok (⟨v.elems ++ [x], v.size + 1, if v.size = 0 then 1 else v.cap * 2⟩,
        b - 1 - v.elems.length) := by
  unfold EmplaceBackC
  by_cases hc : v.size < v.cap
  · rw [if_pos hc, if_pos hc]
  · rw [if_neg hc, if_neg hc]
    by_cases hb0 : b = 0
    · rw [if_pos hb0, if_pos (show b ≤ v.elems.length by omega)]
    · rw [if_neg hb0]
      by_cases hbs : b - 1 < v.elems.length
      · simp only [copyRange_err v.elems (b - 1) hbs,
          if_pos (show b ≤ v.elems.length by omega)]
      · simp only [copyRange_ok v.elems (b - 1) (by omega),
          if_neg (show ¬ b ≤ v.elems.length by omega)]

theorem emplaceReallocC_eq (v : Vec) (p x b : Nat) (hp : p ≤ v.elems.length) :
    EmplaceReallocC v p x b =
      if b = 0 then .error (v, 0)
      else if b ≤ p then .error (v, 1)
      else if b ≤ v.elems.length then .error (v, p + 1)
      else .ok (⟨v.elems.take p ++ x :: v.elems.drop p, v.size + 1,
          if v.size = 0 then 1 else v.cap * 2⟩, b - 1 - v.elems.length) := by
  have hlt : (v.elems.take p).length = p := by rw [List.length_take]; omega
  have hld : (v.elems.drop p).length = v.elems.length - p := List.length_drop p v.elems
  unfold EmplaceReallocC
  by_cases hb0 : b = 0
  · rw [if_pos hb0, if_pos hb0]
  · rw [if_neg hb0, if_neg hb0]
    by_cases hbp : b - 1 < (v.elems.take p).length
    · simp only [copyRange_err (v.elems.take p) (b - 1) hbp,
        if_pos (show b ≤ p by omega)]
    · by_cases hbs : b - 1 - (v.elems.take p).length < (v.elems.drop p).length
      · simp only [copyRange_ok (v.elems.take p) (b - 1) (by omega),
          copyRange_err (v.elems.drop p) (b - 1 - (v.elems.take p).length) hbs,
          if_neg (show ¬ b ≤ p by omega),
          if_pos (show b ≤ v.elems.length by omega)]
      · have heq : b - 1 - (v.elems.take p).length - (v.elems.drop p).length =
            b - 1 - v.elems.length := by
          rw [hlt, hld]; omega
        simp only [copyRange_ok (v.elems.take p) (b - 1) (by omega),
          copyRange_ok (v.elems.drop p) (b - 1 - (v.elems.take p).length) (by omega),
          heq, if_neg (show ¬ b ≤ p by omega),
          if_neg (show ¬ b ≤ v.elems.length by omega)]

theorem copyAssign_eq (lhs rhs : Vec) (b : Nat)
    (hr1 : rhs.size = rhs.elems.length) :
    CopyAssign false lhs rhs b =
      if lhs.cap < rhs.size then
        if rhs.size ≤ b then
          .ok ⟨⟨rhs.elems, rhs.size, rhs.size⟩, b - rhs.size, lhs.size⟩
        else .error (lhs, 0)
      else if rhs.size < lhs.size then
        .ok ⟨⟨rhs.elems, rhs.size, lhs.cap⟩, b, lhs.size - rhs.size⟩
      else if rhs.size - lhs.size ≤ b then
        .ok ⟨⟨rhs.elems, rhs.size, lhs.cap⟩, b - (rhs.size - lhs.size), 0⟩
      else .error (⟨rhs.elems.take lhs.size, lhs.size, lhs.cap⟩, 0) := by
  have htake : rhs.elems.take rhs.size = rhs.elems := by
    rw [hr1, List.take_length]
  unfold CopyAssign
  rw [if_neg (by simp)]
  by_cases hc : lhs.cap < rhs.size
  · rw [if_pos hc, if_pos hc, htake]
    by_cases hb : rhs.size ≤ b
    · have heq : b - rhs.elems.length = b - rhs.size := by omega
      simp only [copyRange_ok rhs.elems b (by omega), heq, if_pos hb]
    · simp only [copyRange_err rhs.elems b (by omega), if_neg hb]
  · rw [if_neg hc, if_neg hc]
    by_cases hs : rhs.size < lhs.size
    · rw [if_pos hs, if_pos hs, htake]
    · rw [if_neg hs, if_neg hs]
      have hfull : (rhs.elems.drop lhs.size).take (rhs.size - lhs.size) =
          rhs.elems.drop lhs.size := by
        apply List.take_of_length_le
        rw [List.length_drop]
        omega
      have hlen : ((rhs.elems.drop lhs.size).take (rhs.size - lhs.size)).length =
          rhs.size - lhs.size := by
        rw [List.length_take, List.length_drop]
        omega
      by_cases hb : rhs.size - lhs.size ≤ b
      · simp only
          [copyRange_ok ((rhs.elems.drop lhs.size).take (rhs.size - lhs.size)) b
            (by omega)]
        rw [hlen, hfull, List.take_append_drop, if_pos hb]
      · simp only
          [copyRange_err ((rhs.elems.drop lhs.size).take (rhs.size - lhs.size)) b
            (by omega), if_neg hb]

theorem reserve_spec (v : Vec) (n : Nat) :
    (Reserve v n).elems = v.elems ∧ (Reserve v n).size = v.size ∧
    (Reserve v n).cap = if n ≤ v.cap then v.cap else n := by
  unfold Reserve
  by_cases hc : n ≤ v.cap
  · rw [if_pos hc, if_pos hc]
    exact ⟨rfl, rfl, rfl⟩
  · rw [if_neg hc, if_neg hc]
    exact ⟨rfl, rfl, rfl⟩

theorem partialShiftAt_length (l : List Nat) (n k : Nat) (hn : n ≤ l.length)
    (hk : k ≤ n - 1) (h1 : 1 ≤ n) : (partialShiftAt l n k).length = n + 1 := by
  unfold partialShiftAt
  rw [List.length_append, List.length_append, List.length_take, List.length_take,
    List.length_drop, List.length_cons, List.length_nil]
  omega

theorem winv_emplaceBack (v : Vec) (x : Nat) (hv : WInv v) :
    WInv (EmplaceBack v x) := by
  obtain ⟨hc1, hl1, hl2⟩ := hv
  have he := emplaceBack_elems_size v x
  have hcp := emplaceBack_cap v x
  have hlen : (EmplaceBack v x).elems.length = v.elems.length + 1 := by
    rw [he.1, List.length_append, List.length_cons, List.length_nil]
  refine ⟨?_, ?_, ?_⟩
  · rw [he.2, hcp]
    by_cases hlt : v.size < v.cap
    · rw [if_pos hlt]; omega
    · rw [if_neg hlt]
      by_cases h0 : v.size = 0
      · rw [if_pos h0]; omega
      · rw [if_neg h0]; omega
  · rw [he.2, hlen]; omega
  · rw [he.2, hlen]; omega

theorem winv_emplace (v : Vec) (p x : Nat) (hv : WInv v) (hp : p ≤ v.size) :
    WInv (Emplace v p x) := by
  obtain ⟨hc1, hl1, hl2⟩ := hv
  by_cases hps : p = v.size
  · rw [Emplace, if_pos hps]
    exact winv_emplaceBack v x ⟨hc1, hl1, hl2⟩
  · rw [Emplace, if_neg hps]
    have hplen : p < v.elems.length := by omega
    by_cases hcc : v.size < v.cap
    · rw [if_pos hcc]
      have hsh := inPlaceShift_eq v.elems p x hplen
      refine ⟨?_, ?_, ?_⟩
      · show v.size + 1 ≤ v.cap
        omega
      · show v.size + 1 ≤ (inPlaceShift v.elems p x).length
        rw [hsh, List.length_append, List.length_cons, List.length_take,
          List.length_drop]
        omega
      · show (inPlaceShift v.elems p x).length ≤ v.size + 1 + 1
        rw [hsh, List.length_append, List.length_cons, List.length_take,
          List.length_drop]
        omega
    · rw [if_neg hcc]
      refine ⟨?_, ?_, ?_⟩
      · show v.size + 1 ≤ if v.size = 0 then 1 else v.cap * 2
        rw [if_neg (show ¬ v.size = 0 by omega)]
        omega
      · show v.size + 1 ≤ (v.elems.take p ++ x :: v.elems.drop p).length
        rw [List.length_append, List.length_cons, List.length_take,
          List.length_drop]
        omega
      · show (v.elems.take p ++ x :: v.elems.drop p).length ≤ v.size + 1 + 1
        rw [List.length_append, List.length_cons, List.length_take,
          List.length_drop]
        omega

theorem winv_erase (v : Vec) (p : Nat) (hv : WInv v) (hp : p < v.size) :
    WInv (Erase v p) := by
  obtain ⟨hc1, hl1, hl2⟩ := hv
  have hlen : (Erase v p).elems.length = v.size - 1 := by
    show ((v.elems.take p ++ v.elems.drop (p + 1) ++ v.elems.drop (v.size - 1)).take
        (v.size - 1)).length = v.size - 1
    rw [List.length_take, List.length_append, List.length_append, List.length_take,
      List.length_drop, List.length_drop]
    omega
  refine ⟨?_, ?_, ?_⟩
  · show v.size - 1 ≤ v.cap
    omega
  · show v.size - 1 ≤ (Erase v p).elems.length
    rw [hlen]
  · show (Erase v p).elems.length ≤ v.size - 1 + 1
    rw [hlen]
    omega

theorem winv_popBack (v : Vec) (hv : WInv v) : WInv (PopBack v) := by
  obtain ⟨hc1, hl1, hl2⟩ := hv
  have hlen : (PopBack v).elems.length = v.size - 1 := by
    show (v.elems.take (v.size - 1)).length = v.size - 1
    rw [List.length_take]
    omega
  refine ⟨?_, ?_, ?_⟩
  · show v.size - 1 ≤ v.cap
    omega
  · show v.size - 1 ≤ (PopBack v).elems.length
    rw [hlen]
  · show (PopBack v).elems.length ≤ v.size - 1 + 1
    rw [hlen]
    omega

theorem winv_reserve (v : Vec) (n : Nat) (hv : WInv v) : WInv (Reserve v n) := by
  obtain ⟨hc1, hl1, hl2⟩ := hv
  obtain ⟨he, hs, hcp⟩ := reserve_spec v n
  refine ⟨?_, ?_, ?_⟩
  · rw [hs, hcp]
    by_cases hcc : n ≤ v.cap
    · rw [if_pos hcc]; omega
    · rw [if_neg hcc]; omega
  · rw [hs, he]; omega
  · rw [hs, he]; omega

theorem winv_resize (v : Vec) (n : Nat) (hv : WInv v) : WInv (Resize v n) := by
  obtain ⟨hc1, hl1, hl2⟩ := hv
  unfold Resize
  by_cases h0 : n = v.size
  · rw [if_pos h0]
    exact ⟨hc1, hl1, hl2⟩
  · rw [if_neg h0]
    by_cases hlt : n < v.size
    · rw [if_pos hlt]
      refine ⟨?_, ?_, ?_⟩
      · show n ≤ v.cap
        omega
      · show n ≤ (v.elems.take n).length
        rw [List.length_take]; omega
      · show (v.elems.take n).length ≤ n + 1
        rw [List.length_take]; omega
    · rw [if_neg hlt]
      obtain ⟨he, hs, hcp⟩ := reserve_spec v n
      have hlen : ((Reserve v n).elems ++ List.replicate (n - v.size) 0).length =
          v.elems.length + (n - v.size) := by
        rw [List.length_append, he, List.length_replicate]
      refine ⟨?_, ?_, ?_⟩
      · show n ≤ (Reserve v n).cap
        rw [hcp]
        by_cases hcc : n ≤ v.cap
        · rw [if_pos hcc]; omega
        · rw [if_neg hcc]
      · show n ≤ ((Reserve v n).elems ++ List.replicate (n - v.size) 0).length
        rw [hlen]; omega
      · show ((Reserve v n).elems ++ List.replicate (n - v.size) 0).length ≤ n + 1
        rw [hlen]; omega

theorem winv_assign_ok (same : Bool) (lhs rhs : Vec) (b : Nat) (out : AssignOut)
    (hl : WInv lhs) (hr : Inv rhs) (h : CopyAssign same lhs rhs b = .ok out) :
    WInv out.vec := by
  obtain ⟨hc1, hl1, hl2⟩ := hl
  obtain ⟨r1, r2⟩ := hr
  cases same with
  | true =>
    rw [show CopyAssign true lhs rhs b = .ok ⟨lhs, b, 0⟩ from rfl] at h
    injection h with h'
    rw [← h']
    exact ⟨hc1, hl1, hl2⟩
  | false =>
    rw [copyAssign_eq lhs rhs b r1] at h
    by_cases hc : lhs.cap < rhs.size
    · rw [if_pos hc] at h
      by_cases hb : rhs.size ≤ b
      · rw [if_pos hb] at h
        injection h with h'
        rw [← h']
        exact ⟨Nat.le_refl _, show rhs.size ≤ rhs.elems.length by omega,
          show rhs.elems.length ≤ rhs.size + 1 by omega⟩
      · rw [if_neg hb] at h; exact Except.noConfusion h
    · rw [if_neg hc] at h
      by_cases hs : rhs.size < lhs.size
      · rw [if_pos hs] at h
        injection h with h'
        rw [← h']
        exact ⟨show rhs.size ≤ lhs.cap by omega,
          show rhs.size ≤ rhs.elems.length by omega,
          show rhs.elems.length ≤ rhs.size + 1 by omega⟩
      · rw [if_neg hs] at h
        by_cases hb : rhs.size - lhs.size ≤ b
        · rw [if_pos hb] at h
          injection h with h'
          rw [← h']
          exact ⟨show rhs.size ≤ lhs.cap by omega,
            show rhs.size ≤ rhs.elems.length by omega,
            show rhs.elems.length ≤ rhs.size + 1 by omega⟩
        · rw [if_neg hb] at h; exact Except.noConfusion h

theorem winv_assign_err (same : Bool) (lhs rhs : Vec) (b : Nat) (out : Vec × Nat)
    (hl : WInv lhs) (hr : Inv rhs) (h : CopyAssign same lhs rhs b = .error out) :
    WInv out.1 := by
  obtain ⟨hc1, hl1, hl2⟩ := hl
  obtain ⟨r1, r2⟩ := hr
  cases same with
  | true =>
    rw [show CopyAssign true lhs rhs b = .ok ⟨lhs, b, 0⟩ from rfl] at h
    exact Except.noConfusion h
  | false =>
    rw [copyAssign_eq lhs rhs b r1] at h
    by_cases hc : lhs.cap < rhs.size
    · rw [if_pos hc] at h
      by_cases hb : rhs.size ≤ b
      · rw [if_pos hb] at h; exact Except.noConfusion h
      · rw [if_neg hb] at h
        injection h with h'
        rw [← h']
        exact ⟨hc1, hl1, hl2⟩
    · rw [if_neg hc] at h
      by_cases hs : rhs.size < lhs.size
      · rw [if_pos hs] at h; exact Except.noConfusion h
      · rw [if_neg hs] at h
        by_cases hb : rhs.size - lhs.size ≤ b
        · rw [if_pos hb] at h; exact Except.noConfusion h
        · rw [if_neg hb] at h
          injection h with h'
          rw [← h']
          refine ⟨?_, ?_, ?_⟩
          · show lhs.size ≤ lhs.cap
            omega
          · show lhs.size ≤ (rhs.elems.take lhs.size).length
            rw [List.length_take]; omega
          · show (rhs.elems.take lhs.size).length ≤ lhs.size + 1
            rw [List.length_take]; omega

theorem emplaceBackC_err_eq (v : Vec) (x b : Nat) (w : Vec)
    (h : EmplaceBackC v x b = .error w) : w = v := by
  rw [emplaceBackC_eq v x b] at h
  by_cases hc : v.size < v.cap
  · rw [if_pos hc] at h
    by_cases hb0 : b = 0
    · rw [if_pos hb0] at h; injection h with h'; exact h'.symm
    · rw [if_neg hb0] at h; exact Except.noConfusion h
  · rw [if_neg hc] at h
    by_cases hb : b ≤ v.elems.length
    · rw [if_pos hb] at h; injection h with h'; exact h'.symm
    · rw [if_neg hb] at h; exact Except.noConfusion h

theorem winv_pushC_ok (v : Vec) (x b : Nat) (out : Vec × Nat) (hv : WInv v)
    (h : EmplaceBackC v x b = .ok out) : WInv out.1 := by
  obtain ⟨hc1, hl1, hl2⟩ := hv
  rw [emplaceBackC_eq v x b] at h
  by_cases hc : v.size < v.cap
  · rw [if_pos hc] at h
    by_cases hb0 : b = 0
    · rw [if_pos hb0] at h; exact Except.noConfusion h
    · rw [if_neg hb0] at h
      injection h with h'
      rw [← h']
      refine ⟨?_, ?_, ?_⟩
      · show v.size + 1 ≤ v.cap
        omega
      · show v.size + 1 ≤ (v.elems ++ [x]).length
        rw [List.length_append, List.length_cons, List.length_nil]; omega
      · show (v.elems ++ [x]).length ≤ v.size + 1 + 1
        rw [List.length_append, List.length_cons, List.length_nil]; omega
  · rw [if_neg hc] at h
    by_cases hb : b ≤ v.elems.length
    · rw [if_pos hb] at h; exact Except.noConfusion h
    · rw [if_neg hb] at h
      injection h with h'
      rw [← h']
      refine ⟨?_, ?_, ?_⟩
      · show v.size + 1 ≤ if v.size = 0 then 1 else v.cap * 2
        by_cases h0 : v.size = 0
        · rw [if_pos h0]; omega
        · rw [if_neg h0]; omega
      · show v.size + 1 ≤ (v.elems ++ [x]).length
        rw [List.length_append, List.length_cons, List.length_nil]; omega
      · show (v.elems ++ [x]).length ≤ v.size + 1 + 1
        rw [List.length_append, List.length_cons, List.length_nil]; omega

theorem emplaceReallocC_err_fst (v : Vec) (p x b : Nat) (out : Vec × Nat)
    (hp : p ≤ v.elems.length) (h : EmplaceReallocC v p x b = .error out) :
    out.1 = v := by
  rw [emplaceReallocC_eq v p x b hp] at h
  by_cases hb0 : b = 0
  · rw [if_pos hb0] at h; injection h with h'; rw [← h']
  · rw [if_neg hb0] at h
    by_cases hbp : b ≤ p
    · rw [if_pos hbp] at h; injection h with h'; rw [← h']
    · rw [if_neg hbp] at h
      by_cases hbs : b ≤ v.elems.length
      · rw [if_pos hbs] at h; injection h with h'; rw [← h']
      · rw [if_neg hbs] at h; exact Except.noConfusion h

theorem winv_emplR_ok (v : Vec) (p x b : Nat) (out : Vec × Nat) (hv : WInv v)
    (hp : p < v.size) (hcap : v.cap ≤ v.size)
    (h : EmplaceReallocC v p x b = .ok out) : WInv out.1 := by
  obtain ⟨hc1, hl1, hl2⟩ := hv
  rw [emplaceReallocC_eq v p x b (by omega)] at h
  by_cases hb0 : b = 0
  · rw [if_pos hb0] at h; exact Except.noConfusion h
  · rw [if_neg hb0] at h
    by_cases hbp : b ≤ p
    · rw [if_pos hbp] at h; exact Except.noConfusion h
    · rw [if_neg hbp] at h
      by_cases hbs : b ≤ v.elems.length
      · rw [if_pos hbs] at h; exact Except.noConfusion h
      · rw [if_neg hbs] at h
        injection h with h'
        rw [← h']
        refine ⟨?_, ?_, ?_⟩
        · show v.size + 1 ≤ if v.size = 0 then 1 else v.cap * 2
          rw [if_neg (show ¬ v.size = 0 by omega)]
          omega
        · show v.size + 1 ≤ (v.elems.take p ++ x :: v.elems.drop p).length
          rw [List.length_append, List.length_cons, List.length_take,
            List.length_drop]
          omega
        · show (v.elems.take p ++ x :: v.elems.drop p).length ≤ v.size + 1 + 1
          rw [List.length_append, List.length_cons, List.length_take,
            List.length_drop]
          omega

theorem winv_inPlace_ok (v : Vec) (p x b : Nat) (out : Vec × Nat) (hv : WInv v)
    (hp : p < v.size) (hcc : v.size < v.cap)
    (h : EmplaceInPlaceC v p x b = .ok out) : WInv out.1 := by
  obtain ⟨hc1, hl1, hl2⟩ := hv
  unfold EmplaceInPlaceC at h
  by_cases hb0 : b = 0
  · rw [if_pos hb0] at h; exact Except.noConfusion h
  · rw [if_neg hb0] at h
    by_cases hm1 : b - 1 < v.size - 1 - p
    · rw [if_pos hm1] at h; exact Except.noConfusion h
    · rw [if_neg hm1] at h
      by_cases hm2 : b - 1 < v.size - p
      · rw [if_pos hm2] at h; exact Except.noConfusion h
      · rw [if_neg hm2] at h
        injection h with h'
        rw [← h']
        have hsh := inPlaceShift_eq v.elems p x (show p < v.elems.length by omega)
        refine ⟨?_, ?_, ?_⟩
        · show v.size + 1 ≤ v.cap
          omega
        · show v.size + 1 ≤ (inPlaceShift v.elems p x).length
          rw [hsh, List.length_append, List.length_cons, List.length_take,
            List.length_drop]
          omega
        · show (inPlaceShift v.elems p x).length ≤ v.size + 1 + 1
          rw [hsh, List.length_append, List.length_cons, List.length_take,
            List.length_drop]
          omega

theorem winv_inPlace_err (v : Vec) (p x b : Nat) (w : Vec) (hv : WInv v)
    (hp : p < v.size) (h : EmplaceInPlaceC v p x b = .error w) : WInv w := by
  obtain ⟨hc1, hl1, hl2⟩ := hv
  unfold EmplaceInPlaceC at h
  by_cases hb0 : b = 0
  · rw [if_pos hb0] at h
    injection h with h'
    rw [← h']
    exact ⟨hc1, hl1, hl2⟩
  · rw [if_neg hb0] at h
    by_cases hm1 : b - 1 < v.size - 1 - p
    · rw [if_pos hm1] at h
      injection h with h'
      rw [← h']
      have hps := partialShiftAt_length v.elems v.size (b - 1) (by omega) (by omega)
        (by omega)
      refine ⟨hc1, ?_, ?_⟩
      · show v.size ≤ (partialShiftAt v.elems v.size (b - 1)).length
        rw [hps]; omega
      · show (partialShiftAt v.elems v.size (b - 1)).length ≤ v.size + 1
        rw [hps]
    · rw [if_neg hm1] at h
      by_cases hm2 : b - 1 < v.size - p
      · rw [if_pos hm2] at h
        injection h with h'
        rw [← h']
        have hps := partialShiftAt_length v.elems v.size (v.size - 1 - p) (by omega)
          (by omega) (by omega)
        refine ⟨hc1, ?_, ?_⟩
        · show v.size ≤ (partialShiftAt v.elems v.size (v.size - 1 - p)).length
          rw [hps]; omega
        · show (partialShiftAt v.elems v.size (v.size - 1 - p)).length ≤ v.size + 1
          rw [hps]
      · rw [if_neg hm2] at h; exact Except.noConfusion h

theorem wstep_preserves (v w : Vec) (hv : WInv v) (h : Step v w) : WInv w := by
  cases h with
  | emplaceBack x => exact winv_emplaceBack v x hv
  | emplace p x hpe => exact winv_emplace v p x hv hpe
  | erase p hpe => exact winv_erase v p hv hpe
  | popBack hpe => exact winv_popBack v hv
  | reserve n => exact winv_reserve v n hv
  | resize n => exact winv_resize v n hv
  | moveSource => exact ⟨Nat.zero_le _, Nat.zero_le _, Nat.zero_le _⟩
  | swapWith w hw =>
      obtain ⟨e1, e2⟩ := hw
      exact ⟨e2, by omega, by omega⟩
  | assignOk same rhs b out hr hok => exact winv_assign_ok same v rhs b out hv hr hok
  | assignErr same rhs b out hr herr =>
      exact winv_assign_err same v rhs b out hv hr herr
  | pushOk x b out hok => exact winv_pushC_ok v x b out hv hok
  | pushErr x b w herr =>
      rw [emplaceBackC_err_eq v x b w herr]
      exact hv
  | emplROk p x b out hpe hce hok => exact winv_emplR_ok v p x b out hv hpe hce hok
  | emplRErr p x b out hpe hce herr =>
      have hple : p ≤ v.elems.length := by
        obtain ⟨a1, a2, a3⟩ := hv
        omega
      rw [emplaceReallocC_err_fst v p x b out hple herr]
      exact hv
  | inPlaceOk p x b out hpe hcc hok => exact winv_inPlace_ok v p x b out hv hpe hcc hok
  | inPlaceErr p x b w hpe hcc herr => exact winv_inPlace_err v p x b w hv hpe herr

/-! ### Claim theorems -/

/-- C1 — the claim fails on the code: move construction transfers the
buffer and zeroes the source's `size_`, but `RawMemory::operator=
(RawMemory&&)` never resets `rhs.capacity_`, so the moved-from vector still
reports its old capacity.  Evaluated at a vector holding `[5]` with
capacity 1: the source ends with size 0 and no buffer, yet
`Capacity()` reports 1, not 0 (while the new vector does hold `[5]`). -/
theorem moveCtor_source_reports_stale_capacity :
    (VectorM.moveCtor ⟨⟨true, 1⟩, [5], 1⟩).2.size = 0 ∧
    (VectorM.moveCtor ⟨⟨true, 1⟩, [5], 1⟩).2.raw.buffer = false ∧
    (VectorM.moveCtor ⟨⟨true, 1⟩, [5], 1⟩).2.raw.capacity = 1 ∧
    (VectorM.moveCtor ⟨⟨true, 1⟩, [5], 1⟩).2.raw.capacity ≠ 0 ∧
    (VectorM.moveCtor ⟨⟨true, 1⟩, [5], 1⟩).1.elemsOwned = [5] ∧
    (VectorM.moveCtor ⟨⟨true, 1⟩, [5], 1⟩).1.raw.capacity = 1 := by
  decide

/-- C2 — appending to a full vector of the throwing-copy element type with
a copy budget that runs out during the append (`b ≤ size`, so the throw
happens while constructing the new element or while `ReallocateData` copies
the old ones) exits by the exception with the vector's elements, size and
capacity exactly as before the call. -/
theorem emplaceBack_copy_throw_intact (v : Vec) (x b : Nat)
    (hv : Inv v) (hfull : v.size = v.cap) (hb : b ≤ v.size) :
    EmplaceBackC v x b = .error v := by
  obtain ⟨hlen0, hle0⟩ := hv
  unfold EmplaceBackC
  rw [if_neg (by omega)]
  by_cases hb0 : b = 0
  · rw [if_pos hb0]
  · rw [if_neg hb0, copyRange_err v.elems (b - 1) (by omega)]

/-- Witness for C2 at the full vector `[7, 8]` (capacity 2) with budget 2. -/
theorem emplaceBack_copy_throw_intact_witness :
    EmplaceBackC ⟨[7, 8], 2, 2⟩ 9 2 = .error ⟨[7, 8], 2, 2⟩ :=
  emplaceBack_copy_throw_intact ⟨[7, 8], 2, 2⟩ 9 2 (by decide) (by decide) (by decide)

/-- C4 (counterexample) — the claim's capacity sequence `1, 2, 2, 4, …`
fails at the third append: starting empty, after three single-element
appends the capacity is 4, not 2 (the second append already fills the
capacity-2 buffer, so the third reallocates to 4). -/
theorem appendIter_three_capacity :
    (AppendIter (fun i => i) 3).cap = 4 ∧ (AppendIter (fun i => i) 3).cap ≠ 2 := by
  decide

/-- C4 (amended) — after the `k`-th single-element append the size is `k`;
whenever a one-element growth forces reallocation the new capacity is
`max 1 (2 × old capacity)`; consequently the capacity after the `k`-th
append (`k ≥ 1`) is the least power of two that is at least `k`, i.e. the
observed capacities follow `1, 2, 4, 4, 8, 8, 8, 8, …`. -/
theorem append_growth (f : Nat → Nat) (k : Nat) (v : Vec) (x : Nat)
    (hv : Inv v) (hfull : ¬ v.size < v.cap) (hk : 1 ≤ k) :
    (AppendIter f k).size = k ∧
    (EmplaceBack v x).cap = max 1 (2 * v.cap) ∧
    k ≤ (AppendIter f k).cap ∧ (AppendIter f k).cap < 2 * k ∧
    ∃ m : Nat, (AppendIter f k).cap = 2 ^ m := by
  obtain ⟨hle, hlt, hpow⟩ := appendIter_cap_bounds f k hk
  refine ⟨(appendIter_size f k).1, ?_, hle, hlt, hpow⟩
  rw [emplaceBack_cap, if_neg hfull]
  rcases hv with ⟨hsz, hcap⟩
  by_cases h0 : v.size = 0
  · have : v.cap = 0 := by omega
    simp [h0, this]
  · rw [if_neg h0]
    omega

/-- Witness for C4 (amended) at `k = 3` appends and the full vector `[5]`
of capacity 1. -/
theorem append_growth_witness :
    (AppendIter id 3).size = 3 ∧
    (EmplaceBack ⟨[5], 1, 1⟩ 7).cap = max 1 (2 * 1) ∧
    3 ≤ (AppendIter id 3).cap ∧ (AppendIter id 3).cap < 2 * 3 ∧
    ∃ m : Nat, (AppendIter id 3).cap = 2 ^ m :=
  append_growth id 3 ⟨[5], 1, 1⟩ 7 (by decide) (by decide) (by decide)

/-- C3 — `Emplace` at an interior position of a full vector (throwing-copy
element type, so both `ReallocatePartial` calls copy).  With budget `b`:
if the throw happens while the prefix `[begin, pos)` is relocated
(`1 ≤ b ≤ p`; the target element consumed one unit), the catch handler
destroys exactly one object of the new storage — the target element — and
the call exits by the exception with the vector untouched; if the throw
happens while the suffix `[pos, end)` is relocated (`p + 1 ≤ b ≤ size`),
the handler destroys the `p + 1` objects constructed so far (target plus
prefix) and the vector is again untouched; with budget for every copy
(`size + 1 ≤ b`) the old elements are destroyed, the new storage is swapped
in and the element sits at `pos` with capacity doubled. -/
theorem emplace_realloc_strong_guarantee (v : Vec) (p x b : Nat)
    (hv : Inv v) (hfull : v.size = v.cap) (hp : p < v.size) :
    (1 ≤ b → b ≤ p → EmplaceReallocC v p x b = .error (v, 1)) ∧
    (p + 1 ≤ b → b ≤ v.size → EmplaceReallocC v p x b = .error (v, p + 1)) ∧
    (v.size + 1 ≤ b →
      EmplaceReallocC v p x b =
        .ok (⟨v.elems.take p ++ x :: v.elems.drop p, v.size + 1, v.cap * 2⟩,
          b - (v.size + 1))) := by
  obtain ⟨h1, h2⟩ := hv
  rw [emplaceReallocC_eq v p x b (show p ≤ v.elems.length by omega)]
  refine ⟨?_, ?_, ?_⟩
  · intro ha hb
    rw [if_neg (show ¬ b = 0 by omega), if_pos hb]
  · intro ha hb
    rw [if_neg (show ¬ b = 0 by omega), if_neg (show ¬ b ≤ p by omega),
        if_pos (show b ≤ v.elems.length by omega)]
  · intro ha
    rw [if_neg (show ¬ b = 0 by omega), if_neg (show ¬ b ≤ p by omega),
        if_neg (show ¬ b ≤ v.elems.length by omega),
        if_neg (show ¬ v.size = 0 by omega),
        show b - 1 - v.elems.length = b - (v.size + 1) by omega, hfull]

/-- Witness for C3: inserting at position 1 of the full vector `[1, 2, 3]`
with budget 1 (the copy of element `1` throws): the prefix relocation
fails, one object (the target) is destroyed, the vector is untouched. -/
theorem emplace_realloc_strong_guarantee_witness :
    EmplaceReallocC ⟨[1, 2, 3], 3, 3⟩ 1 9 1 = .error (⟨[1, 2, 3], 3, 3⟩, 1) :=
  (emplace_realloc_strong_guarantee ⟨[1, 2, 3], 3, 3⟩ 1 9 1 (by decide) (by decide)
    (by decide)).1 (by decide) (by decide)

/-- C5 — copy assignment (non-aliasing case).  With enough budget the left
vector ends element-wise equal to `rhs` with size `rhs.size` and capacity
`rhs.size` when the `rhs.size > capacity` branch reallocates, unchanged
capacity otherwise; and in the reallocating branch a throw while the
temporary copy is built (`b < rhs.size`) exits with the left vector
completely untouched (copy-and-swap, strong guarantee). -/
theorem copy_assign_cases (lhs rhs : Vec) (b : Nat) (hl : Inv lhs) (hr : Inv rhs) :
    (rhs.size ≤ b →
      ∃ bRest d, CopyAssign false lhs rhs b =
        .ok ⟨⟨rhs.elems, rhs.size,
          if lhs.cap < rhs.size then rhs.size else lhs.cap⟩, bRest, d⟩) ∧
    (lhs.cap < rhs.size → b < rhs.size →
      CopyAssign false lhs rhs b = .error (lhs, 0)) := by
  obtain ⟨l1, l2⟩ := hl
  obtain ⟨r1, r2⟩ := hr
  rw [copyAssign_eq lhs rhs b r1]
  constructor
  · intro hb
    by_cases hc : lhs.cap < rhs.size
    · refine ⟨b - rhs.size, lhs.size, ?_⟩
      rw [if_pos hc, if_pos hc, if_pos hb]
    · by_cases hs : rhs.size < lhs.size
      · refine ⟨b, lhs.size - rhs.size, ?_⟩
        rw [if_neg hc, if_neg hc, if_pos hs]
      · refine ⟨b - (rhs.size - lhs.size), 0, ?_⟩
        rw [if_neg hc, if_neg hc, if_neg hs,
            if_pos (show rhs.size - lhs.size ≤ b by omega)]
  · intro hc hb
    rw [if_pos hc, if_neg (show ¬ rhs.size ≤ b by omega)]

/-- Witness for C5: assigning `[2, 3]` over `[1]` (capacity 1) with ample
budget reallocates to capacity 2 and copies both elements; with budget 1
the temporary's construction throws and the left vector is untouched. -/
theorem copy_assign_cases_witness :
    (∃ bRest d, CopyAssign false ⟨[1], 1, 1⟩ ⟨[2, 3], 2, 2⟩ 5 =
      .ok ⟨⟨[2, 3], 2, 2⟩, bRest, d⟩) ∧
    CopyAssign false ⟨[1], 1, 1⟩ ⟨[2, 3], 2, 2⟩ 1 = .error (⟨[1], 1, 1⟩, 0) :=
  ⟨(copy_assign_cases ⟨[1], 1, 1⟩ ⟨[2, 3], 2, 2⟩ 5 (by decide) (by decide)).1
      (by decide),
   (copy_assign_cases ⟨[1], 1, 1⟩ ⟨[2, 3], 2, 2⟩ 1 (by decide) (by decide)).2
      (by decide) (by decide)⟩

/-- C8 — `Resize(n)` with `n < size` keeps the first `n` elements and sets
the size to `n` (tail destroyed, capacity unchanged); with `n > size` it
keeps all old elements, appends `n - size` default-constructed (`0`)
elements and sets the size to `n` (capacity grows to exactly `n` when `n`
exceeds it, via `Reserve`). -/
theorem resize_spec (v : Vec) (n : Nat) (hv : Inv v) :
    (n < v.size → Resize v n = ⟨v.elems.take n, n, v.cap⟩) ∧
    (v.size < n → Resize v n =
      ⟨v.elems ++ List.replicate (n - v.size) 0, n,
        if n ≤ v.cap then v.cap else n⟩) := by
  constructor
  · intro h
    unfold Resize
    rw [if_neg (show ¬ n = v.size by omega), if_pos h]
  · intro h
    unfold Resize
    rw [if_neg (show ¬ n = v.size by omega), if_neg (show ¬ n < v.size by omega)]
    unfold Reserve
    by_cases hc : n ≤ v.cap
    · rw [if_pos hc, if_pos hc]
    · rw [if_neg hc, if_neg hc]

/-- Witness for C8 at `[1, 2, 3]` (capacity 3): shrinking to 2 and growing
to 5. -/
theorem resize_spec_witness :
    Resize ⟨[1, 2, 3], 3, 3⟩ 2 = ⟨[1, 2], 2, 3⟩ ∧
    Resize ⟨[1, 2, 3], 3, 3⟩ 5 = ⟨[1, 2, 3, 0, 0], 5, 5⟩ :=
  ⟨(resize_spec ⟨[1, 2, 3], 3, 3⟩ 2 (by decide)).1 (by decide),
   (resize_spec ⟨[1, 2, 3], 3, 3⟩ 5 (by decide)).2 (by decide)⟩

/-- C6 — `Insert(pos, v)` (which delegates to `Emplace`) at any position
`p ≤ size` places the new element at index `p`, keeps the elements before
`p` in place, shifts the elements from `p` onward one slot right, and
increases the size by exactly one; reading index `p` afterwards yields the
inserted value. -/
theorem insert_places_element (v : Vec) (p x : Nat) (hv : Inv v) (hp : p ≤ v.size) :
    (Insert v p x).elems = v.elems.take p ++ x :: v.elems.drop p ∧
    (Insert v p x).size = v.size + 1 ∧
    (Insert v p x).elems[p]? = some x ∧
    (∀ i : Nat, i < p → (Insert v p x).elems[i]? = v.elems[i]?) ∧
    (∀ i : Nat, p ≤ i → i < v.size → (Insert v p x).elems[i + 1]? = v.elems[i]?) := by
  obtain ⟨hes, hss, _⟩ := emplace_spec v p x hv hp
  obtain ⟨h1, h2⟩ := hv
  have hlt : (v.elems.take p).length = p := by rw [List.length_take]; omega
  have he : (Insert v p x).elems = v.elems.take p ++ x :: v.elems.drop p := hes
  have hs : (Insert v p x).size = v.size + 1 := hss
  refine ⟨he, hs, ?_, ?_, ?_⟩
  · rw [he, List.getElem?_append_right (by omega), hlt, Nat.sub_self]
    simp
  · intro i hi
    rw [he, List.getElem?_append_left (by omega), List.getElem?_take, if_pos hi]
  · intro i hpi his
    rw [he, List.getElem?_append_right (by omega), hlt,
        show i + 1 - p = (i - p) + 1 by omega,
        List.getElem?_cons_succ, List.getElem?_drop]
    congr 1
    omega

/-- Witness for C6: inserting 9 at position 1 of `[1, 2, 3]`. -/
theorem insert_places_element_witness :
    (Insert ⟨[1, 2, 3], 3, 4⟩ 1 9).elems = [1] ++ 9 :: [2, 3] ∧
    (Insert ⟨[1, 2, 3], 3, 4⟩ 1 9).size = 4 ∧
    (Insert ⟨[1, 2, 3], 3, 4⟩ 1 9).elems[1]? = some 9 ∧
    (Insert ⟨[1, 2, 3], 3, 4⟩ 1 9).elems[0]? = ([1, 2, 3] : List Nat)[0]? ∧
    (Insert ⟨[1, 2, 3], 3, 4⟩ 1 9).elems[2]? = ([1, 2, 3] : List Nat)[1]? := by
  have h := insert_places_element ⟨[1, 2, 3], 3, 4⟩ 1 9 (by decide) (by decide)
  exact ⟨h.1, h.2.1, h.2.2.1, h.2.2.2.1 0 (by decide), h.2.2.2.2 1 (by decide) (by decide)⟩

/-- C7 — `Erase(pos)` on a position `p < size` reduces the size by exactly
one, keeps the elements before `p` unchanged, and moves every later element
one slot down: the element formerly at `p + 1` is afterwards at `p`. -/
theorem erase_shifts_left (v : Vec) (p : Nat) (hv : Inv v) (hp : p < v.size) :
    (Erase v p).size = v.size - 1 ∧
    (Erase v p).elems = v.elems.take p ++ v.elems.drop (p + 1) ∧
    (∀ i : Nat, i < p → (Erase v p).elems[i]? = v.elems[i]?) ∧
    (∀ i : Nat, p ≤ i → i + 1 < v.size → (Erase v p).elems[i]? = v.elems[i + 1]?) := by
  obtain ⟨h1, h2⟩ := hv
  have he := erase_elems v p h1 hp
  have hlt : (v.elems.take p).length = p := by rw [List.length_take]; omega
  refine ⟨rfl, he, ?_, ?_⟩
  · intro i hi
    rw [he, List.getElem?_append_left (by omega), List.getElem?_take, if_pos hi]
  · intro i hpi his
    rw [he, List.getElem?_append_right (by omega), hlt, List.getElem?_drop]
    congr 1
    omega

/-- Witness for C7: erasing position 1 of `[1, 2, 3]`: size 2, elements
`[1, 3]`, the old element at index 2 now at index 1. -/
theorem erase_shifts_left_witness :
    (Erase ⟨[1, 2, 3], 3, 4⟩ 1).size = 2 ∧
    (Erase ⟨[1, 2, 3], 3, 4⟩ 1).elems = [1] ++ [3] ∧
    (Erase ⟨[1, 2, 3], 3, 4⟩ 1).elems[0]? = ([1, 2, 3] : List Nat)[0]? ∧
    (Erase ⟨[1, 2, 3], 3, 4⟩ 1).elems[1]? = ([1, 2, 3] : List Nat)[2]? := by
  have h := erase_shifts_left ⟨[1, 2, 3], 3, 4⟩ 1 (by decide) (by decide)
  exact ⟨h.1, h.2.1, h.2.2.1 0 (by decide), h.2.2.2 1 (by decide) (by decide)⟩

/-- C10 — self-assignment (`this == &rhs`, modelled by `same = true`) takes
the early exit of `operator=`: the vector is returned with identical
elements, size and capacity, no copy construction consumes any budget and
no destructor runs. -/
theorem self_assignment_noop (v : Vec) (b : Nat) :
    CopyAssign true v v b = .ok ⟨v, b, 0⟩ := rfl

/-- C9 (counterexample) — the invariant "exactly the elements at `[0, size)`
are live" is falsified by a reachable post-exception state the claim
explicitly covers: on the valid vector `[1, 2]` (capacity 4), the in-place
`Emplace` at position 0 first move-constructs the last element into slot 2
(`new (end()) T(std::move(*(end() - 1)))`, vector.h:198); when the first
move-assignment of `std::move_backward` then throws (move budget 1), the
exception propagates with `size_` still 2 while slots 0, 1 and 2 all hold
live constructed objects — three live objects, not two. -/
theorem inplace_throw_breaks_live_range :
    InitState ⟨[1, 2], 2, 4⟩ ∧
    Relation.ReflTransGen Step ⟨[1, 2], 2, 4⟩ ⟨[1, 2, 2], 2, 4⟩ ∧
    ¬ Inv ⟨[1, 2, 2], 2, 4⟩ := by
  refine ⟨Or.inr (Or.inr (Or.inr ⟨⟨[1, 2], 2, 4⟩, by decide, rfl⟩)), ?_, by decide⟩
  exact Relation.ReflTransGen.single
    (Step.inPlaceErr 0 9 1 ⟨[1, 2, 2], 2, 4⟩ (by decide) (by decide) rfl)

/-- C9 (amended) — every vector reachable from a constructor state by any
sequence of public operations — including the moved-from side of a move and
the states observed when a throwing operation propagates an exception —
satisfies `size ≤ capacity`, and the objects at logical indices `[0, size)`
are always live; they are exactly the live objects except that an exception
from the unguarded in-place `Insert`/`Emplace` shift leaves one extra
constructed object at slot `size` (at most `size + 1` live objects, size
unchanged). -/
theorem reachable_weak_invariant (v w : Vec) (h0 : InitState v)
    (h : Relation.ReflTransGen Step v w) : WInv w := by
  have hv : WInv v := by
    rcases h0 with h0 | ⟨n, h0⟩ | ⟨u, hu, h0⟩ | ⟨u, hu, h0⟩
    · subst h0
      exact ⟨Nat.zero_le _, Nat.zero_le _, Nat.zero_le _⟩
    · subst h0
      refine ⟨Nat.le_refl n, ?_, ?_⟩
      · show n ≤ (List.replicate n 0).length
        rw [List.length_replicate]
      · show (List.replicate n 0).length ≤ n + 1
        rw [List.length_replicate]
        omega
    · subst h0
      obtain ⟨u1, u2⟩ := hu
      refine ⟨Nat.le_refl _, ?_, ?_⟩
      · show u.size ≤ (u.elems.take u.size).length
        rw [List.length_take]; omega
      · show (u.elems.take u.size).length ≤ u.size + 1
        rw [List.length_take]; omega
    · subst h0
      obtain ⟨u1, u2⟩ := hu
      refine ⟨u2, ?_, ?_⟩
      · show u.size ≤ u.elems.length
        omega
      · show u.elems.length ≤ u.size + 1
        omega
  induction h with
  | refl => exact hv
  | tail hs hstep ih => exact wstep_preserves _ _ ih hstep

/-- Witness for C9 (amended): the very post-exception state of the
in-place-shift failure satisfies the weakened invariant (three live
objects, size 2, capacity 4). -/
theorem reachable_weak_invariant_witness : WInv ⟨[1, 2, 2], 2, 4⟩ :=
  reachable_weak_invariant ⟨[1, 2], 2, 4⟩ ⟨[1, 2, 2], 2, 4⟩
    (Or.inr (Or.inr (Or.inr ⟨⟨[1, 2], 2, 4⟩, by decide, rfl⟩)))
    (Relation.ReflTransGen.single
      (Step.inPlaceErr 0 9 1 ⟨[1, 2, 2], 2, 4⟩ (by decide) (by decide) rfl))

end AdvancedVector
